import Mathlib

/-!
Verification of the chorus VST signal-processing core (`src/lib.rs`).

Numeric model: the plugin does its arithmetic on `f32`; we model it with
exact rationals (`ℚ`), `usize` with `ℕ`, and `i32` with `ℤ`, spelling out
the rounding and casting operations the source performs.

The repository modules `delay.rs`, `lfo.rs` and `chorus.rs` are not in the
source tree; the corresponding definitions below are modelled from the
specification (sections 4.1, 4.2, 4.3 and 4.4) and are marked as such in
their doc comments.  Everything else is translated directly from
`src/lib.rs`, including the commented-out reference implementation of the
per-sample channel algorithm (lines 225-302), which the spec documents as
the algorithm of the channel chorus engine.
-/

namespace Maeror

/-- Rust `f32::round`: rounds to the nearest integer, ties away from zero.
For `q < 0` the value is `⌈q - 1/2⌉`, written here as `-⌊-q + 1/2⌋`. -/
def rustRound (q : ℚ) : ℤ :=
  if 0 ≤ q then ⌊q + 1/2⌋ else -⌊-q + 1/2⌋

/-- Rust `as usize` cast from a float value (here an exact rational):
truncation toward zero, saturating at 0 for negative inputs. -/
def usizeOfRat (q : ℚ) : ℕ := (⌊q⌋).toNat

/-- Rust `as usize` cast from a (signed) integer: wraps modulo `2^64`. -/
def usizeOfInt (i : ℤ) : ℕ := (i % (2 ^ 64 : ℤ)).toNat

/-- Modelled from the spec: `delay.rs` is not in the source tree.
Spec 4.1: a Delay Line is a fixed-capacity circular sample buffer with a
write cursor, invariant `0 ≤ cursor < capacity`. -/
structure Delay where
  buffer : List ℚ
  cursor : ℕ
  deriving Repr, DecidableEq

namespace Delay

/-- Capacity of the delay line, i.e. the length of its sample buffer. -/
def capacity (d : Delay) : ℕ := d.buffer.length

/-- Modelled from the spec (4.1 `construct`): preallocates `capacity`
samples all set to `initial_value`, write cursor at 0.  Mirrors
`delay::Delay::new(capacity, delay, value)` as called from `lib.rs`. -/
def new (cap : ℕ) (_initial_delay : ℕ) (v : ℚ) : Delay :=
  ⟨List.replicate cap v, 0⟩

/-- Modelled from the spec (4.1 `resize`): reallocates to `new_capacity`
samples, resets content to zero and resets the write cursor.  Mirrors
`resize_buffers` as called from `MaerorChorus::initialize`. -/
def resize_buffers (cap : ℕ) (_d : Delay) : Delay :=
  ⟨List.replicate cap 0, 0⟩

/-- Modelled from the spec (4.1 `process`): writes `input` at the current
cursor, advances the cursor circularly (`(cursor+1) mod capacity`),
computes a read index `(cursor - delay_in_samples) mod capacity`, and
returns the buffer value there.  Mirrors `process_sample` as called from
the reference implementation in `lib.rs`. -/
def process_sample (d : Delay) (input : ℚ) (delay_in_samples : ℕ) : ℚ × Delay :=
  let cap := d.buffer.length
  let buf := d.buffer.set d.cursor input
  let cur := (d.cursor + 1) % cap
  let idx := (((cur : ℤ) - (delay_in_samples : ℤ)) % (cap : ℤ)).toNat
  (buf.getD idx 0, ⟨buf, cur⟩)

end Delay

/-- Modelled from the spec: `lfo.rs` is not in the source tree.
Spec 4.2: an LFO holds `sample_rate`, `rate` (Hz, externally mutable) and
`phase` in `[0, 1)`. -/
structure LFO where
  sample_rate : ℚ
  rate : ℚ
  phase : ℚ
  deriving Repr, DecidableEq

namespace LFO

/-- Modelled from the spec (4.2 `construct`): phase starts at 0.
Mirrors `lfo::LFO::new(sample_rate, rate)`. -/
def new (sr rate : ℚ) : LFO := ⟨sr, rate, 0⟩

/-- Modelled from the spec (4.2 `construct_random_phase`): phase drawn
uniformly in `[0, 1)` once at construction; the random draw is supplied
explicitly as `seed` and wrapped into `[0, 1)`.  Mirrors
`lfo::LFO::new_random_phase(sample_rate, rate)`. -/
def new_random_phase (sr rate seed : ℚ) : LFO := ⟨sr, rate, Int.fract seed⟩

/-- Setting the `rate` field, as the reference implementation does every
sample (`self.l_lfo1.rate = rate`). -/
def setRate (r : ℚ) (l : LFO) : LFO := { l with rate := r }

/-- Modelled from the spec (4.2 `advance`):
`phase = (phase + rate/sample_rate) mod 1`.  Mirrors `update_lfo`. -/
def advance (l : LFO) : LFO :=
  { l with phase := Int.fract (l.phase + l.rate / l.sample_rate) }

/-- Iterated advance: `n` successive calls to `advance`. -/
def advanceN (l : LFO) : ℕ → LFO
  | 0 => l
  | n + 1 => (l.advanceN n).advance

end LFO

/-- The six smoothed scalar control values plus the sample rate, as read at
the top of each iteration of `MaerorChorus::process` (lines 206-211) and
passed to the engine. -/
structure Params where
  sample_rate : ℚ
  delay_ms : ℚ
  feedback : ℚ
  depth : ℚ
  rate : ℚ
  wet : ℚ
  dry : ℚ
  deriving Repr, DecidableEq

/-- Per-channel engine state: three delay lines, three LFOs and the
feedback history buffer, exactly the per-channel fields of `MaerorChorus`
used by the reference implementation. -/
structure ChannelState where
  d1 : Delay
  d2 : Delay
  d3 : Delay
  lfo1 : LFO
  lfo2 : LFO
  lfo3 : LFO
  fb : List ℚ
  deriving Repr, DecidableEq

/-- Base-delay computation, `lib.rs` line 213: `((delay_ms / 1000.0) * self.sample_rate).round() as usize`. -/
def delaySamplesOf (p : Params) : ℕ :=
  (rustRound (p.delay_ms / 1000 * p.sample_rate)).toNat

/-- Reference implementation lines 235-238: the modulation depth in
samples, clamped to half the base delay. -/
def calculatedDepth (p : Params) : ℚ :=
  let cd := p.depth / 1000 * p.sample_rate
  if cd > (delaySamplesOf p : ℚ) / 2 then (delaySamplesOf p : ℚ) / 2 else cd

/-- Reference implementation lines 239-241: a per-tap delay offset,
`(lfo.next_value() * calculated_depth / 2.0).round() as i32`.  The LFO
value (spec 4.2: a sinusoid of the phase, in `[-1, 1]`) is abstracted as a
function `osc` of the phase, constrained to `[-1, 1]` in the theorems. -/
def offsetOf (osc : ℚ → ℚ) (p : Params) (phase : ℚ) : ℤ :=
  rustRound (osc phase * calculatedDepth p / 2)

/-- Reference implementation line 243: the feedback-augmented input
`x = *sample + wet * feedback * feedback_buffer.get(delay_samples).unwrap()`. -/
def fbInput (p : Params) (x_in : ℚ) (fb : List ℚ) : ℚ :=
  x_in + p.wet * p.feedback * fb.getD (delaySamplesOf p) 0

/-- Reference implementation lines 245-249: the mixed output before the
headroom guard, `wet * 1/3 * (tap1 + tap2 + tap3) + x * dry`, where each
tap is a delay-line read of `x` at `(delay_samples as i32 + offset_k) as
usize`. -/
def chorusMixPre (osc : ℚ → ℚ) (p : Params) (x_in : ℚ) (st : ChannelState) : ℚ :=
  let ds := delaySamplesOf p
  let o1 := offsetOf osc p st.lfo1.phase
  let o2 := offsetOf osc p st.lfo2.phase
  let o3 := offsetOf osc p st.lfo3.phase
  let x := fbInput p x_in st.fb
  let t1 := (st.d1.process_sample x (usizeOfInt ((ds : ℤ) + o1))).1
  let t2 := (st.d2.process_sample x (usizeOfInt ((ds : ℤ) + o2))).1
  let t3 := (st.d3.process_sample x (usizeOfInt ((ds : ℤ) + o3))).1
  p.wet * (1/3) * (t1 + t2 + t3) + x * p.dry

/-- One per-sample step of the channel chorus engine, translated from the
reference implementation in `lib.rs` (left-channel branch, lines 227-263):
set the LFO rates, compute the base delay and clamped depth, read the
feedback buffer, run the three delay taps, mix, apply the headroom guard,
advance the LFOs, and push the output into the feedback buffer
(`rotate_right(1)` then overwrite slot 0). -/
def chorusStep (osc : ℚ → ℚ) (p : Params) (x_in : ℚ) (st : ChannelState) :
    ℚ × ChannelState :=
  let ds := delaySamplesOf p
  let o1 := offsetOf osc p st.lfo1.phase
  let o2 := offsetOf osc p st.lfo2.phase
  let o3 := offsetOf osc p st.lfo3.phase
  let x := fbInput p x_in st.fb
  let r1 := st.d1.process_sample x (usizeOfInt ((ds : ℤ) + o1))
  let r2 := st.d2.process_sample x (usizeOfInt ((ds : ℤ) + o2))
  let r3 := st.d3.process_sample x (usizeOfInt ((ds : ℤ) + o3))
  let y0 := p.wet * (1/3) * (r1.1 + r2.1 + r3.1) + x * p.dry
  let y := if p.wet + p.dry > 1 then y0 / (p.wet + p.dry) else y0
  (y, { d1 := r1.2, d2 := r2.2, d3 := r3.2,
        lfo1 := (st.lfo1.setRate p.rate).advance,
        lfo2 := (st.lfo2.setRate p.rate).advance,
        lfo3 := (st.lfo3.setRate p.rate).advance,
        fb := y :: st.fb.dropLast })

/-- Runs the engine over a list of input samples with a fixed parameter
snapshot, returning the output samples and the final state. -/
def chorusRun (osc : ℚ → ℚ) (p : Params) :
    List ℚ → ChannelState → List ℚ × ChannelState
  | [], st => ([], st)
  | x :: xs, st =>
    let r := chorusStep osc p x st
    let rest := chorusRun osc p xs r.2
    (r.1 :: rest.1, rest.2)

/-- Modelled from the spec: `chorus.rs` (the active `Chorus` combinator) is
not in the source tree.  Spec 3/4.4: a StereoChorus owns exactly two
independent channel chorus engines and the current parameter snapshot, with
no shared mutable state between the engines beyond the incoming parameter
values; each engine runs the per-sample procedure of spec 4.3 (the
reference implementation, `chorusStep`). -/
structure Chorus where
  left : ChannelState
  right : ChannelState
  params : Params
  deriving Repr, DecidableEq

namespace Chorus

/-- Modelled from the spec: stores the per-sample parameter snapshot,
mirroring `chorus.set_params(sample_rate, delay_ms, feedback, depth, rate,
wet, dry)` at `lib.rs` line 215. -/
def set_params (p : Params) (c : Chorus) : Chorus := { c with params := p }

/-- Modelled from the spec: processes one sample through the left channel
engine using the stored parameter snapshot, touching only the left
engine's state. -/
def process_left (osc : ℚ → ℚ) (x : ℚ) (c : Chorus) : ℚ × Chorus :=
  let r := chorusStep osc c.params x c.left
  (r.1, { c with left := r.2 })

/-- Modelled from the spec: processes one sample through the right channel
engine using the stored parameter snapshot, touching only the right
engine's state. -/
def process_right (osc : ℚ → ℚ) (x : ℚ) (c : Chorus) : ℚ × Chorus :=
  let r := chorusStep osc c.params x c.right
  (r.1, { c with right := r.2 })

/-- Modelled from the spec: resizes both engines' delay and feedback
buffers to one second of audio at `sr` (contents reset), as called by
`MaerorChorus::initialize` line 179. -/
def resize_buffers (sr : ℚ) (c : Chorus) : Chorus :=
  let n := usizeOfRat sr
  let rz := fun (st : ChannelState) =>
    { st with d1 := Delay.resize_buffers n st.d1,
              d2 := Delay.resize_buffers n st.d2,
              d3 := Delay.resize_buffers n st.d3,
              fb := List.replicate n 0 }
  { c with left := rz c.left, right := rz c.right }

end Chorus

/-- One audio frame of the active processing loop, `lib.rs` lines 215-223:
set the parameter snapshot once, then route the channel-0 sample through
`process_left` and the channel-1 sample through `process_right`. -/
def processFrame (osc : ℚ → ℚ) (p : Params) (x0 x1 : ℚ) (c : Chorus) :
    (ℚ × ℚ) × Chorus :=
  let c0 := c.set_params p
  let r0 := c0.process_left osc x0
  let r1 := r0.2.process_right osc x1
  ((r0.1, r1.1), r1.2)

/-- The plugin state: the fields of `struct MaerorChorus` (`lib.rs` lines
13-31), with the parameter object reduced to its seven scalar values. -/
structure MaerorChorusState where
  params : Params
  l_delay_line1 : Delay
  l_delay_line2 : Delay
  l_delay_line3 : Delay
  r_delay_line1 : Delay
  r_delay_line2 : Delay
  r_delay_line3 : Delay
  l_lfo1 : LFO
  l_lfo2 : LFO
  l_lfo3 : LFO
  r_lfo1 : LFO
  r_lfo2 : LFO
  r_lfo3 : LFO
  sample_rate : ℚ
  l_feedback_buffer : List ℚ
  r_feedback_buffer : List ℚ
  chorus : Chorus
  deriving Repr, DecidableEq

/-- The model of `MaerorChorus::initialize` (`lib.rs` lines 152-190) for a host-reported
sample rate `host`: resizes the six delay lines to `host as usize` samples,
re-creates the six LFOs with random initial phases (the six random draws
supplied explicitly as `seeds`), sets `self.sample_rate = 2.0 * host`,
re-creates the feedback buffers and fills them with `host as usize` zeros,
and resizes the chorus buffers at the (doubled) `self.sample_rate`. -/
def pluginInit (host : ℚ) (seeds : Fin 6 → ℚ) (st : MaerorChorusState) :
    MaerorChorusState :=
  let n := usizeOfRat host
  { st with
    l_delay_line1 := Delay.resize_buffers n st.l_delay_line1,
    l_delay_line2 := Delay.resize_buffers n st.l_delay_line2,
    l_delay_line3 := Delay.resize_buffers n st.l_delay_line3,
    r_delay_line1 := Delay.resize_buffers n st.r_delay_line1,
    r_delay_line2 := Delay.resize_buffers n st.r_delay_line2,
    r_delay_line3 := Delay.resize_buffers n st.r_delay_line3,
    l_lfo1 := LFO.new_random_phase host (1/4) (seeds 0),
    l_lfo2 := LFO.new_random_phase host (1/4) (seeds 1),
    l_lfo3 := LFO.new_random_phase host (1/4) (seeds 2),
    r_lfo1 := LFO.new_random_phase host (1/4) (seeds 3),
    r_lfo2 := LFO.new_random_phase host (1/4) (seeds 4),
    r_lfo3 := LFO.new_random_phase host (1/4) (seeds 5),
    sample_rate := 2 * host,
    l_feedback_buffer := List.replicate n 0,
    r_feedback_buffer := List.replicate n 0,
    chorus := st.chorus.resize_buffers (2 * host) }

/-- The model of `MaerorChorus::reset` (`lib.rs` lines 192-195): the body is empty, so
the plugin state is returned unchanged. -/
def reset (st : MaerorChorusState) : MaerorChorusState := st

/-- The base-delay computation of `MaerorChorus::process`, `lib.rs` line
213: `((delay_ms / 1000.0) * self.sample_rate).round() as usize`, using the
plugin's `sample_rate` field. -/
def processDelaySamples (st : MaerorChorusState) (delay_ms : ℚ) : ℕ :=
  (rustRound (delay_ms / 1000 * st.sample_rate)).toNat

/-- Bound predicate for buffers: every stored sample has magnitude at most
`B`. -/
def BoundedBy (B : ℚ) (l : List ℚ) : Prop := ∀ v ∈ l, |v| ≤ B

/-- Bound predicate for a whole channel engine state: the three delay-line
buffers and the feedback buffer all hold samples of magnitude at most `B`. -/
def StateBoundedBy (B : ℚ) (st : ChannelState) : Prop :=
  BoundedBy B st.d1.buffer ∧ BoundedBy B st.d2.buffer ∧
  BoundedBy B st.d3.buffer ∧ BoundedBy B st.fb

/-- A constant oscillator stuck at 0 (a valid sinusoid sample value). -/
def oscZero : ℚ → ℚ := fun _ => 0

/-- A constant oscillator stuck at 1 (the peak sinusoid sample value). -/
def oscOne : ℚ → ℚ := fun _ => 1

/-- A concrete LFO for witnesses. -/
def lfoEx : LFO := ⟨44100, 1/4, 0⟩

/-- A concrete four-sample delay line for witnesses. -/
def delayEx : Delay := ⟨[0, 0, 0, 0], 0⟩

/-- A concrete channel engine state for witnesses. -/
def chEx : ChannelState := ⟨delayEx, delayEx, delayEx, lfoEx, lfoEx, lfoEx, [0, 0, 0, 0]⟩

/-- Parameter snapshot exhibiting the depth-clamp offset overshoot:
`sample_rate = 1000`, `delay_ms = 2` and `depth = 25` ms (all in range), so
`delay_samples = 2` and the raw depth 25 is clamped to `1`. -/
def pOffsetCex : Params := ⟨1000, 2, 0, 25, 1, 0, 0⟩

/-- Parameter snapshot for the headroom-guard witness: `wet = dry = 0.8`. -/
def pGuard : Params := ⟨44100, 15, 0, 5, 1/2, 4/5, 4/5⟩

/-- Parameter snapshot for the passthrough witness:
`feedback = 0, wet = 0, dry = 1`. -/
def pPass : Params := ⟨44100, 15, 0, 5, 1/2, 0, 1⟩

/-- Parameter snapshot for the stability witness: `feedback = 0.999`,
`wet = 1`, `dry = 1`. -/
def pStab : Params := ⟨4, 100, 999/1000, 5, 1, 1, 1⟩

/-- Zero LFO-phase seeds for plugin-initialization witnesses. -/
def seedsEx : Fin 6 → ℚ := fun _ => 0

/-- A concrete whole-plugin state for witnesses. -/
def stEx : MaerorChorusState :=
  ⟨pPass, delayEx, delayEx, delayEx, delayEx, delayEx, delayEx,
   lfoEx, lfoEx, lfoEx, lfoEx, lfoEx, lfoEx, 44100,
   [0, 0, 0, 0], [0, 0, 0, 0], ⟨chEx, chEx, pPass⟩⟩

/-! ## Theorems -/

/-- Claim C10: calling the plugin's `reset()` leaves the entire plugin
state unchanged — every delay buffer, feedback buffer, LFO phase, sample
rate and parameter field is identical before and after the call, so a
host-triggered reset does not clear delay or feedback history. -/
theorem reset_preserves_state (st : MaerorChorusState) :
    reset st = st ∧
    (reset st).l_delay_line1.buffer = st.l_delay_line1.buffer ∧
    (reset st).r_delay_line1.buffer = st.r_delay_line1.buffer ∧
    (reset st).l_feedback_buffer = st.l_feedback_buffer ∧
    (reset st).r_feedback_buffer = st.r_feedback_buffer ∧
    (reset st).l_lfo1.phase = st.l_lfo1.phase ∧
    (reset st).r_lfo1.phase = st.r_lfo1.phase ∧
    (reset st).sample_rate = st.sample_rate ∧
    (reset st).chorus = st.chorus ∧
    (reset st).params = st.params :=
  ⟨rfl, rfl, rfl, rfl, rfl, rfl, rfl, rfl, rfl, rfl⟩

/-- Claim C8: per audio frame, the channel-0 sample goes through the left
engine and the channel-1 sample through the right engine, both with the
same parameter snapshot for that frame, and neither channel's processing
reads or writes the other channel's buffer state: each output and each
updated engine state is a function of that engine's own prior state
only. -/
theorem stereo_frame_routing (osc : ℚ → ℚ) (p : Params) (x0 x1 : ℚ) (c : Chorus) :
    (processFrame osc p x0 x1 c).1.1 = (chorusStep osc p x0 c.left).1 ∧
    (processFrame osc p x0 x1 c).1.2 = (chorusStep osc p x1 c.right).1 ∧
    (processFrame osc p x0 x1 c).2.left = (chorusStep osc p x0 c.left).2 ∧
    (processFrame osc p x0 x1 c).2.right = (chorusStep osc p x1 c.right).2 ∧
    (processFrame osc p x0 x1 c).2.params = p :=
  ⟨rfl, rfl, rfl, rfl, rfl⟩

/-- Claim C1 (amended): the base delay is computed as
`delay_samples = round(delay_ms / 1000 * sample_rate)`, but the
`sample_rate` field that drives the conversion is set by `initialize` to
twice the host-reported rate, not to the host rate itself. -/
theorem delay_samples_doubled_rate (host : ℚ) (seeds : Fin 6 → ℚ)
    (st : MaerorChorusState) (dm : ℚ) :
    (pluginInit host seeds st).sample_rate = 2 * host ∧
    processDelaySamples (pluginInit host seeds st) dm =
      (rustRound (dm / 1000 * (2 * host))).toNat :=
  ⟨rfl, rfl⟩

/-- Claim C1, as stated, is false: after initialization at host rate 44100,
processing `delay_ms = 15` computes `delay_samples = 1323`
(= `round(15/1000 * 88200)`), not `round(15/1000 * 44100) = 662`. -/
theorem delay_samples_host_rate_cex :
    ¬ (processDelaySamples (pluginInit 44100 seedsEx stEx) 15 =
       (rustRound ((15 : ℚ) / 1000 * 44100)).toNat) := by
  have h1 : processDelaySamples (pluginInit 44100 seedsEx stEx) 15 =
      (rustRound ((15 : ℚ) / 1000 * (2 * 44100))).toNat := rfl
  rw [h1]
  norm_num [rustRound]
  decide

/-- Claim C2: for every sample, the channel output before the headroom
guard equals `y = wet * (tap_sum / 3) + x * dry`, where
`x = x_in + wet * feedback * feedback_buffer.get(delay_samples)` (the
feedback tap reads at the fixed base-delay lookback, not modulated per
LFO) and `tap_sum` is the sum of the three delay-line reads of `x` at
delays `delay_samples + offset_k`; the final output is that value run
through the headroom guard. -/
theorem mix_formula (osc : ℚ → ℚ) (p : Params) (x_in : ℚ) (st : ChannelState) :
    chorusMixPre osc p x_in st =
      p.wet *
        (((st.d1.process_sample (x_in + p.wet * p.feedback * st.fb.getD (delaySamplesOf p) 0)
            (usizeOfInt ((delaySamplesOf p : ℤ) + offsetOf osc p st.lfo1.phase))).1 +
          (st.d2.process_sample (x_in + p.wet * p.feedback * st.fb.getD (delaySamplesOf p) 0)
            (usizeOfInt ((delaySamplesOf p : ℤ) + offsetOf osc p st.lfo2.phase))).1 +
          (st.d3.process_sample (x_in + p.wet * p.feedback * st.fb.getD (delaySamplesOf p) 0)
            (usizeOfInt ((delaySamplesOf p : ℤ) + offsetOf osc p st.lfo3.phase))).1) / 3) +
      (x_in + p.wet * p.feedback * st.fb.getD (delaySamplesOf p) 0) * p.dry ∧
    (chorusStep osc p x_in st).1 =
      (if 1 < p.wet + p.dry then chorusMixPre osc p x_in st / (p.wet + p.dry)
       else chorusMixPre osc p x_in st) := by
  constructor
  · show chorusMixPre osc p x_in st = _
    rw [chorusMixPre]
    simp only [fbInput]
    ring
  · rfl

/-- Claim C4: for every sample, if `wet + dry > 1` the returned output
equals the unclamped mix divided by `wet + dry`, and otherwise the
unclamped mix is returned unchanged; in particular with
`wet = 0.8, dry = 0.8` the output equals the unclamped mix divided by
`1.6`. -/
theorem headroom_guard (osc : ℚ → ℚ) (p : Params) (x : ℚ) (st : ChannelState) :
    (1 < p.wet + p.dry →
      (chorusStep osc p x st).1 = chorusMixPre osc p x st / (p.wet + p.dry)) ∧
    (p.wet + p.dry ≤ 1 →
      (chorusStep osc p x st).1 = chorusMixPre osc p x st) ∧
    (p.wet = 4/5 → p.dry = 4/5 →
      (chorusStep osc p x st).1 = chorusMixPre osc p x st / (8/5)) := by
  have hy : (chorusStep osc p x st).1 =
      (if 1 < p.wet + p.dry then chorusMixPre osc p x st / (p.wet + p.dry)
       else chorusMixPre osc p x st) := rfl
  refine ⟨fun h => ?_, fun h => ?_, fun hw hd => ?_⟩
  · rw [hy, if_pos h]
  · rw [hy, if_neg (not_lt.mpr h)]
  · rw [hy, if_pos (by rw [hw, hd]; norm_num), hw, hd]
    norm_num

/-- Witness for the headroom-guard claim at `wet = dry = 0.8`: the output
is the unclamped mix divided by `1.6 = 8/5`. -/
theorem headroom_guard_witness :
    (chorusStep oscZero pGuard 1 chEx).1 = chorusMixPre oscZero pGuard 1 chEx / (8/5) :=
  (headroom_guard oscZero pGuard 1 chEx).2.2 rfl rfl

/-- Passthrough at a single step: with `feedback = 0, wet = 0, dry = 1`
the engine returns its input sample unchanged, for any state. -/
theorem passthrough_step (osc : ℚ → ℚ) (p : Params) (x : ℚ) (st : ChannelState)
    (hf : p.feedback = 0) (hw : p.wet = 0) (hd : p.dry = 1) :
    (chorusStep osc p x st).1 = x := by
  have hy : (chorusStep osc p x st).1 =
      (if 1 < p.wet + p.dry then chorusMixPre osc p x st / (p.wet + p.dry)
       else chorusMixPre osc p x st) := rfl
  rw [hy, if_neg (by rw [hw, hd]; norm_num)]
  rw [chorusMixPre]
  simp only [fbInput, hf, hw, hd]
  ring

/-- Claim C5: with parameters `feedback = 0, wet = 0, dry = 1`, for every
input sequence and every initial buffer/phase state, the output sequence
equals the input sequence exactly, sample for sample. -/
theorem passthrough_run (osc : ℚ → ℚ) (p : Params) (xs : List ℚ) (st : ChannelState)
    (hf : p.feedback = 0) (hw : p.wet = 0) (hd : p.dry = 1) :
    (chorusRun osc p xs st).1 = xs := by
  induction xs generalizing st with
  | nil => rfl
  | cons x xs ih =>
    rw [chorusRun]
    simp only [passthrough_step osc p x st hf hw hd, List.cons.injEq, true_and]
    exact ih _

/-- Witness for the passthrough claim on a concrete input sequence. -/
theorem passthrough_run_witness :
    (chorusRun oscZero pPass [3, -2, 7] chEx).1 = [3, -2, 7] :=
  passthrough_run oscZero pPass [3, -2, 7] chEx rfl rfl rfl

/-- Rounding moves a rational by at most one half, so the magnitude of the
rounded value is at most the magnitude of the argument plus one half. -/
theorem abs_rustRound_le (q : ℚ) : |((rustRound q : ℤ) : ℚ)| ≤ |q| + 1/2 := by
  rw [rustRound]
  split_ifs with h
  · have h0 : (0 : ℤ) ≤ ⌊q + 1/2⌋ := Int.floor_nonneg.mpr (by linarith)
    have h1 : ((⌊q + 1/2⌋ : ℤ) : ℚ) ≤ q + 1/2 := Int.floor_le _
    rw [abs_of_nonneg (by exact_mod_cast h0), abs_of_nonneg h]
    linarith
  · push_neg at h
    have h0 : (0 : ℤ) ≤ ⌊-q + 1/2⌋ := Int.floor_nonneg.mpr (by linarith)
    have h1 : ((⌊-q + 1/2⌋ : ℤ) : ℚ) ≤ -q + 1/2 := Int.floor_le _
    rw [Int.cast_neg, abs_neg, abs_of_nonneg (by exact_mod_cast h0), abs_of_neg h]
    linarith

/-- Rounding zero gives zero. -/
theorem rustRound_zero : rustRound 0 = 0 := by
  rw [rustRound]
  norm_num

/-- Claim C3 (amended): the modulation depth equals
`min(depth / 1000 * sample_rate, delay_samples / 2)`, hence
`calculated_depth ≤ delay_samples / 2` after clamping for every input; for
in-range parameters (`depth ≥ 0`, `sample_rate ≥ 0`) and an LFO value in
`[-1, 1]`, each per-tap offset `round(lfo_value * calculated_depth / 2)`
has magnitude at most `delay_samples / 4 + 1/2` (the rounding can overshoot
`delay_samples / 4` by up to one half), and the modulated read offset
`delay_samples + offset_k` can never go negative. -/
theorem depth_clamp_offsets (osc : ℚ → ℚ) (p : Params) (ph : ℚ)
    (hosc : ∀ q, |osc q| ≤ 1) (hdep : 0 ≤ p.depth) (hsr : 0 ≤ p.sample_rate) :
    calculatedDepth p =
      min (p.depth / 1000 * p.sample_rate) ((delaySamplesOf p : ℚ) / 2) ∧
    calculatedDepth p ≤ (delaySamplesOf p : ℚ) / 2 ∧
    |((offsetOf osc p ph : ℤ) : ℚ)| ≤ (delaySamplesOf p : ℚ) / 4 + 1/2 ∧
    0 ≤ (delaySamplesOf p : ℤ) + offsetOf osc p ph := by
  have hds0 : (0 : ℚ) ≤ (delaySamplesOf p : ℚ) := Nat.cast_nonneg _
  have hmin : calculatedDepth p =
      min (p.depth / 1000 * p.sample_rate) ((delaySamplesOf p : ℚ) / 2) := by
    rw [calculatedDepth, min_def]
    split_ifs <;> first | rfl | linarith
  have hle : calculatedDepth p ≤ (delaySamplesOf p : ℚ) / 2 :=
    hmin ▸ min_le_right _ _
  have hcd0 : 0 ≤ calculatedDepth p := by
    rw [hmin]
    exact le_min (mul_nonneg (div_nonneg hdep (by norm_num)) hsr) (by linarith)
  have habs : |osc ph * calculatedDepth p / 2| ≤ (delaySamplesOf p : ℚ) / 4 := by
    rw [abs_div, abs_mul]
    have h1 : |osc ph| * |calculatedDepth p| ≤ 1 * ((delaySamplesOf p : ℚ) / 2) :=
      mul_le_mul (hosc ph) (by rwa [abs_of_nonneg hcd0]) (abs_nonneg _) zero_le_one
    have h2 : |(2 : ℚ)| = 2 := by norm_num
    rw [h2]
    linarith
  have hoff : |((offsetOf osc p ph : ℤ) : ℚ)| ≤ (delaySamplesOf p : ℚ) / 4 + 1/2 := by
    rw [offsetOf]
    calc |((rustRound (osc ph * calculatedDepth p / 2) : ℤ) : ℚ)|
        ≤ |osc ph * calculatedDepth p / 2| + 1/2 := abs_rustRound_le _
      _ ≤ (delaySamplesOf p : ℚ) / 4 + 1/2 := by linarith
  refine ⟨hmin, hle, hoff, ?_⟩
  rcases Nat.eq_zero_or_pos (delaySamplesOf p) with h0 | h1
  · have hcdz : calculatedDepth p = 0 := by
      apply le_antisymm _ hcd0
      rw [h0] at hle
      simpa using hle
    have : offsetOf osc p ph = 0 := by
      rw [offsetOf, hcdz, mul_zero, zero_div, rustRound_zero]
    rw [h0, this]
    norm_num
  · have hds1 : (1 : ℚ) ≤ (delaySamplesOf p : ℚ) := by exact_mod_cast h1
    have hlow : -((delaySamplesOf p : ℚ) / 4 + 1/2) ≤ ((offsetOf osc p ph : ℤ) : ℚ) :=
      (abs_le.mp hoff).1
    have : (0 : ℚ) ≤ ((delaySamplesOf p : ℕ) : ℚ) + ((offsetOf osc p ph : ℤ) : ℚ) := by
      linarith
    exact_mod_cast this

/-- Witness for the depth-clamp claim at concrete in-range parameters. -/
theorem depth_clamp_offsets_witness :
    calculatedDepth pPass =
      min (pPass.depth / 1000 * pPass.sample_rate) ((delaySamplesOf pPass : ℚ) / 2) ∧
    calculatedDepth pPass ≤ (delaySamplesOf pPass : ℚ) / 2 ∧
    |((offsetOf oscZero pPass 0 : ℤ) : ℚ)| ≤ (delaySamplesOf pPass : ℚ) / 4 + 1/2 ∧
    0 ≤ (delaySamplesOf pPass : ℤ) + offsetOf oscZero pPass 0 :=
  depth_clamp_offsets oscZero pPass 0
    (fun q => by rw [oscZero]; norm_num)
    (by norm_num [pPass])
    (by norm_num [pPass])

/-- Claim C3, as stated, is false on its `delay_samples / 4` magnitude
bound: with `sample_rate = 1000`, `delay_ms = 2` (so `delay_samples = 2`)
and a large raw depth clamped to `1`, an LFO value of `1` gives offset
`round(1/2) = 1`, which exceeds `delay_samples / 4 = 1/2`. -/
theorem offset_quarter_cex :
    (∀ q : ℚ, |oscOne q| ≤ 1) ∧
    ¬ (|((offsetOf oscOne pOffsetCex 0 : ℤ) : ℚ)| ≤ (delaySamplesOf pOffsetCex : ℚ) / 4) := by
  have hds : delaySamplesOf pOffsetCex = 2 := by
    rw [delaySamplesOf, pOffsetCex]
    norm_num [rustRound]
    decide
  have hcd : calculatedDepth pOffsetCex = 1 := by
    rw [calculatedDepth, hds, pOffsetCex]
    norm_num
  have hoff : offsetOf oscOne pOffsetCex 0 = 1 := by
    rw [offsetOf, hcd, oscOne]
    norm_num [rustRound]
  constructor
  · intro q
    rw [oscOne]
    norm_num
  · rw [hds, hoff]
    norm_num

/-- Claim C7 (amended): after initialization with a host sample rate of at
least 1 Hz, for every `delay_ms` in `(0, 50]`, the computed
`delay_samples = round(delay_ms / 1000 * (2 * sample_rate))` (the plugin's
internal rate is twice the host rate, cf. the C1 theorems) lies in
`[0, capacity - 1]` of the delay buffers, whose capacity is
`sample_rate as usize` samples. -/
theorem delay_samples_in_capacity (host dm : ℚ) (seeds : Fin 6 → ℚ)
    (st : MaerorChorusState) (h1 : 1 ≤ host) (h2 : 0 < dm) (h3 : dm ≤ 50) :
    processDelaySamples (pluginInit host seeds st) dm <
      (pluginInit host seeds st).l_delay_line1.buffer.length := by
  have hL : (pluginInit host seeds st).l_delay_line1.buffer.length = (⌊host⌋).toNat := by
    simp [pluginInit, Delay.resize_buffers, usizeOfRat]
  have hP : processDelaySamples (pluginInit host seeds st) dm =
      (rustRound (dm / 1000 * (2 * host))).toNat := rfl
  rw [hL, hP]
  have hh0 : (0 : ℚ) < host := lt_of_lt_of_le one_pos h1
  have ha0 : (0 : ℚ) ≤ dm / 1000 * (2 * host) := by positivity
  have hr : rustRound (dm / 1000 * (2 * host)) = ⌊dm / 1000 * (2 * host) + 1/2⌋ := by
    rw [rustRound, if_pos ha0]
  rw [hr]
  have hpos : (0 : ℤ) < ⌊host⌋ := by
    have : (1 : ℤ) ≤ ⌊host⌋ := Int.le_floor.mpr (by exact_mod_cast h1)
    omega
  have hab : dm / 1000 * (2 * host) ≤ host / 10 := by nlinarith
  have hfloor : ⌊dm / 1000 * (2 * host) + 1/2⌋ < ⌊host⌋ := by
    rcases le_or_lt (5/3 : ℚ) host with hbig | hsmall
    · have hstep : dm / 1000 * (2 * host) + 1/2 + 1 ≤ host := by linarith
      have e1 : ⌊dm / 1000 * (2 * host) + 1/2⌋ + 1 =
          ⌊dm / 1000 * (2 * host) + 1/2 + 1⌋ := (Int.floor_add_one _).symm
      have e2 : ⌊dm / 1000 * (2 * host) + 1/2 + 1⌋ ≤ ⌊host⌋ := Int.floor_le_floor hstep
      omega
    · have hlt : dm / 1000 * (2 * host) + 1/2 < 1 := by linarith
      have e1 : ⌊dm / 1000 * (2 * host) + 1/2⌋ < (1 : ℤ) :=
        Int.floor_lt.mpr (by exact_mod_cast hlt)
      have e2 : (1 : ℤ) ≤ ⌊host⌋ := Int.le_floor.mpr (by exact_mod_cast h1)
      omega
  exact (Int.toNat_lt_toNat hpos).mpr hfloor

/-- Witness for the capacity bound at host rate 44100 and `delay_ms = 15`. -/
theorem delay_samples_in_capacity_witness :
    processDelaySamples (pluginInit 44100 seedsEx stEx) 15 <
      (pluginInit 44100 seedsEx stEx).l_delay_line1.buffer.length :=
  delay_samples_in_capacity 44100 15 seedsEx stEx (by norm_num) (by norm_num)
    (by norm_num)

/-- Claim C7, as stated, is false for arbitrarily small positive sample
rates: at host rate `1/2 > 0` and `delay_ms = 50`, initialization sizes
the delay buffers to `(1/2) as usize = 0` samples, so the computed
`delay_samples = 0` does not lie in `[0, capacity - 1]` (the range is
empty). -/
theorem delay_capacity_cex :
    (0 : ℚ) < 1/2 ∧ (0 : ℚ) < 50 ∧ (50 : ℚ) ≤ 50 ∧
    ¬ (processDelaySamples (pluginInit (1/2) seedsEx stEx) 50 <
       (pluginInit (1/2) seedsEx stEx).l_delay_line1.buffer.length) := by
  refine ⟨by norm_num, by norm_num, le_refl _, ?_⟩
  have hL : (pluginInit (1/2 : ℚ) seedsEx stEx).l_delay_line1.buffer.length = 0 := by
    simp [pluginInit, Delay.resize_buffers, usizeOfRat]
    norm_num
  rw [hL]
  omega

/-- Fractional part absorbs an inner fractional part under addition. -/
theorem fract_fract_add (a b : ℚ) :
    Int.fract (Int.fract a + b) = Int.fract (a + b) := by
  have h : Int.fract a + b = a + b - (⌊a⌋ : ℚ) := by
    rw [Int.fract]
    ring
  rw [h, Int.fract_sub_int]

/-- Closed form for the phase after `n + 1` advances of an LFO whose rate
is never changed: the initial phase shifted by `n + 1` steps of
`rate / sample_rate`, wrapped into `[0, 1)`. -/
theorem advanceN_phase (sr r p0 : ℚ) : ∀ n : ℕ,
    (LFO.mk sr r p0).advanceN (n + 1) =
      LFO.mk sr r (Int.fract (p0 + ((n + 1 : ℕ) : ℚ) * (r / sr)))
  | 0 => by
    simp [LFO.advanceN, LFO.advance]
  | n + 1 => by
    show ((LFO.mk sr r p0).advanceN (n + 1)).advance = _
    rw [advanceN_phase sr r p0 n]
    simp only [LFO.advance]
    rw [LFO.mk.injEq]
    refine ⟨rfl, rfl, ?_⟩
    rw [fract_fract_add]
    congr 1
    push_cast
    ring

/-- Claim C9: `advance()` sets the phase to
`(phase + rate / sample_rate) mod 1`, so the invariant `phase ∈ [0, 1)` is
re-established by every advance, whatever the current rate and phase are
(in particular after the rate was changed externally); and an LFO with
rate `r` and sample rate `sr` returns to its initial phase after
`round(sr / r)` calls to `advance()`, within one sample's phase increment
`r / sr` of tolerance (up to the whole number of completed cycles `j`). -/
theorem lfo_invariant_periodicity (l : LFO) (sr r p0 : ℚ)
    (hr : 0 < r) (hrs : r ≤ sr) :
    (0 ≤ l.advance.phase ∧ l.advance.phase < 1) ∧
    (∃ j : ℤ, |((LFO.mk sr r p0).advanceN (rustRound (sr / r)).toNat).phase
                - p0 - (j : ℚ)| ≤ r / sr) := by
  have hsr0 : (0 : ℚ) < sr := lt_of_lt_of_le hr hrs
  refine ⟨⟨Int.fract_nonneg _, Int.fract_lt_one _⟩, ?_⟩
  have hdiv1 : (1 : ℚ) ≤ sr / r := (one_le_div hr).mpr hrs
  have hround : rustRound (sr / r) = ⌊sr / r + 1/2⌋ := by
    rw [rustRound, if_pos (by linarith)]
  have hn1 : (1 : ℤ) ≤ rustRound (sr / r) := by
    rw [hround]
    exact Int.le_floor.mpr (by push_cast; linarith)
  obtain ⟨m, hm⟩ : ∃ m : ℕ, (rustRound (sr / r)).toNat = m + 1 :=
    ⟨(rustRound (sr / r)).toNat - 1, by omega⟩
  rw [hm, advanceN_phase]
  have hcast : ((m + 1 : ℕ) : ℚ) = ((rustRound (sr / r) : ℤ) : ℚ) := by
    have h0 : ((rustRound (sr / r)).toNat : ℤ) = rustRound (sr / r) :=
      Int.toNat_of_nonneg (by omega)
    rw [← hm]
    exact_mod_cast congrArg (fun z : ℤ => (z : ℚ)) h0
  have hq0 : (0 : ℚ) < r / sr := div_pos hr hsr0
  have hub : ((rustRound (sr / r) : ℤ) : ℚ) ≤ sr / r + 1/2 := by
    rw [hround]
    exact Int.floor_le _
  have hlb : sr / r - 1/2 < ((rustRound (sr / r) : ℤ) : ℚ) := by
    rw [hround]
    have := Int.lt_floor_add_one (sr / r + 1/2)
    linarith
  have hinv : (sr / r) * (r / sr) = 1 := by
    field_simp
  refine ⟨1 - ⌊p0 + ((m + 1 : ℕ) : ℚ) * (r / sr)⌋, ?_⟩
  show |Int.fract (p0 + ((m + 1 : ℕ) : ℚ) * (r / sr)) - p0 -
      ((1 - ⌊p0 + ((m + 1 : ℕ) : ℚ) * (r / sr)⌋ : ℤ) : ℚ)| ≤ r / sr
  have heq : Int.fract (p0 + ((m + 1 : ℕ) : ℚ) * (r / sr)) - p0 -
      ((1 - ⌊p0 + ((m + 1 : ℕ) : ℚ) * (r / sr)⌋ : ℤ) : ℚ) =
      ((m + 1 : ℕ) : ℚ) * (r / sr) - 1 := by
    rw [Int.fract]
    push_cast
    ring
  rw [heq, hcast]
  have h5 : ((rustRound (sr / r) : ℤ) : ℚ) * (r / sr) ≤ (sr / r + 1/2) * (r / sr) :=
    mul_le_mul_of_nonneg_right hub hq0.le
  have h6 : (sr / r + 1/2) * (r / sr) = (sr / r) * (r / sr) + (1/2) * (r / sr) := by
    ring
  have h7 : (sr / r - 1/2) * (r / sr) ≤ ((rustRound (sr / r) : ℤ) : ℚ) * (r / sr) :=
    mul_le_mul_of_nonneg_right hlb.le hq0.le
  have h8 : (sr / r - 1/2) * (r / sr) = (sr / r) * (r / sr) - (1/2) * (r / sr) := by
    ring
  rw [abs_le]
  constructor
  · rw [h8] at h7
    rw [hinv] at h7
    linarith
  · rw [h6] at h5
    rw [hinv] at h5
    linarith

/-- Witness for the LFO claim at `sample_rate = 10`, `rate = 4`: the phase
invariant holds after one advance and the phase returns to its start
within `4/10` after `round(10/4) = 3` advances. -/
theorem lfo_invariant_periodicity_witness :
    (0 ≤ (LFO.mk 10 4 0).advance.phase ∧ (LFO.mk 10 4 0).advance.phase < 1) ∧
    (∃ j : ℤ, |((LFO.mk 10 4 0).advanceN (rustRound ((10 : ℚ) / 4)).toNat).phase
                - 0 - (j : ℚ)| ≤ (4 : ℚ) / 10) :=
  lfo_invariant_periodicity (LFO.mk 10 4 0) 10 4 0 (by norm_num) (by norm_num)

/-- Reading any slot of a bounded buffer (default 0) stays within the
bound. -/
theorem BoundedBy_getD {B : ℚ} {l : List ℚ} (h : BoundedBy B l) (hB : 0 ≤ B)
    (n : ℕ) : |l.getD n 0| ≤ B := by
  rcases lt_or_ge n l.length with hn | hn
  · rw [List.getD_eq_getElem l 0 hn]
    exact h _ (List.getElem_mem hn)
  · rw [List.getD_eq_default l 0 hn]
    simpa using hB

/-- Writing a bounded sample into a bounded buffer keeps it bounded. -/
theorem BoundedBy_set {B x : ℚ} {l : List ℚ} (h : BoundedBy B l) (hx : |x| ≤ B)
    (i : ℕ) : BoundedBy B (l.set i x) := by
  intro v hv
  rcases List.mem_or_eq_of_mem_set hv with h1 | h2
  · exact h v h1
  · rw [h2]
    exact hx

/-- Dropping the last element of a bounded buffer keeps it bounded. -/
theorem BoundedBy_dropLast {B : ℚ} {l : List ℚ} (h : BoundedBy B l) :
    BoundedBy B l.dropLast :=
  fun v hv => h v ((List.dropLast_sublist l).subset hv)

/-- The sample read from a delay line is bounded whenever the buffer and
the written input are. -/
theorem process_sample_fst_bounded (d : Delay) (input : ℚ) (n : ℕ) (B : ℚ)
    (hb : BoundedBy B d.buffer) (hi : |input| ≤ B) (hB : 0 ≤ B) :
    |(d.process_sample input n).1| ≤ B := by
  simp only [Delay.process_sample]
  exact BoundedBy_getD (BoundedBy_set hb hi _) hB _

/-- Arithmetic core of the per-sample bound: the wet/dry mix of three
bounded taps and a bounded augmented input is bounded by
`1000 * (wet + dry)`. -/
theorem mix_bound (w d xa t1 t2 t3 : ℚ) (hw0 : 0 ≤ w) (hd0 : 0 ≤ d)
    (hxa : |xa| ≤ 1000) (h1 : |t1| ≤ 1000) (h2 : |t2| ≤ 1000)
    (h3 : |t3| ≤ 1000) :
    |w * (1/3) * (t1 + t2 + t3) + xa * d| ≤ 1000 * (w + d) := by
  have habs : |t1 + t2 + t3| ≤ 3000 := by
    calc |t1 + t2 + t3| ≤ |t1 + t2| + |t3| := abs_add _ _
      _ ≤ |t1| + |t2| + |t3| := by linarith [abs_add t1 t2]
      _ ≤ 3000 := by linarith
  have k1 : 0 ≤ w * (3000 - |t1 + t2 + t3|) := mul_nonneg hw0 (by linarith)
  have k2 : 0 ≤ d * (1000 - |xa|) := mul_nonneg hd0 (by linarith)
  calc |w * (1/3) * (t1 + t2 + t3) + xa * d|
      ≤ |w * (1/3) * (t1 + t2 + t3)| + |xa * d| := abs_add _ _
    _ = w * (1/3) * |t1 + t2 + t3| + |xa| * d := by
        rw [abs_mul, abs_mul, abs_mul, abs_of_nonneg hw0, abs_of_nonneg hd0,
          abs_of_nonneg (show (0:ℚ) ≤ 1/3 by norm_num)]
    _ ≤ 1000 * (w + d) := by nlinarith [k1, k2]

/-- The headroom guard keeps a mix bounded by `1000 * (wet + dry)` within
the absolute bound 1000. -/
theorem guard_bound (w d m : ℚ) (hw0 : 0 ≤ w) (hd0 : 0 ≤ d)
    (hm : |m| ≤ 1000 * (w + d)) :
    |if 1 < w + d then m / (w + d) else m| ≤ 1000 := by
  split_ifs with h
  · rw [abs_div, abs_of_nonneg (by linarith : (0:ℚ) ≤ w + d),
      div_le_iff₀ (by linarith : (0:ℚ) < w + d)]
    linarith
  · push_neg at h
    calc |m| ≤ 1000 * (w + d) := hm
      _ ≤ 1000 := by linarith

/-- One engine step preserves the 1000-bound: with `feedback ≤ 0.999`,
`wet, dry ∈ [0, 1]` and `|input| ≤ 1`, a state whose buffers are bounded by
1000 produces an output bounded by 1000 and a state still bounded by
1000. -/
theorem chorusStep_bounded (osc : ℚ → ℚ) (p : Params) (x : ℚ) (st : ChannelState)
    (hf0 : 0 ≤ p.feedback) (hf1 : p.feedback ≤ 999/1000)
    (hw0 : 0 ≤ p.wet) (hw1 : p.wet ≤ 1)
    (hd0 : 0 ≤ p.dry) (hd1 : p.dry ≤ 1)
    (hx : |x| ≤ 1) (hst : StateBoundedBy 1000 st) :
    |(chorusStep osc p x st).1| ≤ 1000 ∧
    StateBoundedBy 1000 (chorusStep osc p x st).2 := by
  obtain ⟨hb1, hb2, hb3, hbf⟩ := hst
  have hg : |st.fb.getD (delaySamplesOf p) 0| ≤ 1000 :=
    BoundedBy_getD hbf (by norm_num) _
  have hxa : |fbInput p x st.fb| ≤ 1000 := by
    rw [fbInput]
    have habs : |p.wet * p.feedback * st.fb.getD (delaySamplesOf p) 0| ≤ 999 := by
      rw [abs_mul, abs_mul, abs_of_nonneg hw0, abs_of_nonneg hf0]
      calc p.wet * p.feedback * |st.fb.getD (delaySamplesOf p) 0|
          ≤ 1 * (999/1000) * 1000 := by
            apply mul_le_mul _ hg (abs_nonneg _) (by norm_num)
            exact mul_le_mul hw1 hf1 hf0 zero_le_one
        _ = 999 := by norm_num
    calc |x + p.wet * p.feedback * st.fb.getD (delaySamplesOf p) 0|
        ≤ |x| + |p.wet * p.feedback * st.fb.getD (delaySamplesOf p) 0| := abs_add _ _
      _ ≤ 1000 := by linarith
  have hmixb : |chorusMixPre osc p x st| ≤ 1000 * (p.wet + p.dry) := by
    have e : chorusMixPre osc p x st =
        p.wet * (1/3) *
          ((st.d1.process_sample (fbInput p x st.fb)
              (usizeOfInt ((delaySamplesOf p : ℤ) + offsetOf osc p st.lfo1.phase))).1 +
            (st.d2.process_sample (fbInput p x st.fb)
              (usizeOfInt ((delaySamplesOf p : ℤ) + offsetOf osc p st.lfo2.phase))).1 +
            (st.d3.process_sample (fbInput p x st.fb)
              (usizeOfInt ((delaySamplesOf p : ℤ) + offsetOf osc p st.lfo3.phase))).1) +
          fbInput p x st.fb * p.dry := rfl
    rw [e]
    exact mix_bound p.wet p.dry _ _ _ _ hw0 hd0 hxa
      (process_sample_fst_bounded _ _ _ _ hb1 hxa (by norm_num))
      (process_sample_fst_bounded _ _ _ _ hb2 hxa (by norm_num))
      (process_sample_fst_bounded _ _ _ _ hb3 hxa (by norm_num))
  have hout : |(chorusStep osc p x st).1| ≤ 1000 := by
    have hy : (chorusStep osc p x st).1 =
        (if 1 < p.wet + p.dry then chorusMixPre osc p x st / (p.wet + p.dry)
         else chorusMixPre osc p x st) := rfl
    rw [hy]
    exact guard_bound p.wet p.dry _ hw0 hd0 hmixb
  refine ⟨hout, ?_, ?_, ?_, ?_⟩
  · have e : (chorusStep osc p x st).2.d1.buffer =
        st.d1.buffer.set st.d1.cursor (fbInput p x st.fb) := rfl
    rw [e]
    exact BoundedBy_set hb1 hxa _
  · have e : (chorusStep osc p x st).2.d2.buffer =
        st.d2.buffer.set st.d2.cursor (fbInput p x st.fb) := rfl
    rw [e]
    exact BoundedBy_set hb2 hxa _
  · have e : (chorusStep osc p x st).2.d3.buffer =
        st.d3.buffer.set st.d3.cursor (fbInput p x st.fb) := rfl
    rw [e]
    exact BoundedBy_set hb3 hxa _
  · have e : (chorusStep osc p x st).2.fb =
        (chorusStep osc p x st).1 :: st.fb.dropLast := rfl
    rw [e]
    intro v hv
    rcases List.mem_cons.mp hv with h1 | h2
    · rw [h1]
      exact hout
    · exact BoundedBy_dropLast hbf v h2

/-- Claim C6: for every `feedback ∈ [0, 0.999]`, `wet, dry ∈ [0, 1]` and
every input sequence bounded by `|x| ≤ 1`, starting from a state whose
buffers are bounded by 1000 (as the all-zero post-initialization state is),
every output sample and every stored buffer value remains bounded by the
fixed constant 1000, over arbitrarily many processed samples: the feedback
recurrence never diverges. -/
theorem feedback_stability (osc : ℚ → ℚ) (p : Params) (xs : List ℚ)
    (st : ChannelState)
    (hf0 : 0 ≤ p.feedback) (hf1 : p.feedback ≤ 999/1000)
    (hw0 : 0 ≤ p.wet) (hw1 : p.wet ≤ 1)
    (hd0 : 0 ≤ p.dry) (hd1 : p.dry ≤ 1)
    (hxs : ∀ v ∈ xs, |v| ≤ 1) (hst : StateBoundedBy 1000 st) :
    (∀ y ∈ (chorusRun osc p xs st).1, |y| ≤ 1000) ∧
    StateBoundedBy 1000 (chorusRun osc p xs st).2 := by
  induction xs generalizing st with
  | nil =>
    refine ⟨?_, hst⟩
    intro y hy
    simp [chorusRun] at hy
  | cons x xs ih =>
    have hx : |x| ≤ 1 := hxs x (List.mem_cons_self x xs)
    have hstep := chorusStep_bounded osc p x st hf0 hf1 hw0 hw1 hd0 hd1 hx hst
    have hrest := ih _ (fun v hv => hxs v (List.mem_cons_of_mem x hv)) hstep.2
    constructor
    · intro y hy
      have e : (chorusRun osc p (x :: xs) st).1 =
          (chorusStep osc p x st).1 ::
            (chorusRun osc p xs (chorusStep osc p x st).2).1 := rfl
      rw [e] at hy
      rcases List.mem_cons.mp hy with h1 | h2
      · rw [h1]
        exact hstep.1
      · exact hrest.1 y h2
    · have e2 : (chorusRun osc p (x :: xs) st).2 =
          (chorusRun osc p xs (chorusStep osc p x st).2).2 := rfl
      rw [e2]
      exact hrest.2

/-- Witness for the stability claim at `feedback = 0.999`, `wet = dry = 1`
on a concrete bounded input and the all-zero state. -/
theorem feedback_stability_witness :
    (∀ y ∈ (chorusRun oscZero pStab [1] chEx).1, |y| ≤ 1000) ∧
    StateBoundedBy 1000 (chorusRun oscZero pStab [1] chEx).2 :=
  feedback_stability oscZero pStab [1] chEx
    (by norm_num [pStab]) (by norm_num [pStab]) (by norm_num [pStab])
    (by norm_num [pStab]) (by norm_num [pStab]) (by norm_num [pStab])
    (by intro v hv; simp at hv; rw [hv]; norm_num)
    (by
      refine ⟨?_, ?_, ?_, ?_⟩ <;> intro v hv <;>
        simp [chEx, delayEx] at hv <;> rw [hv] <;> norm_num)

end Maeror
